import Mathlib

/-!
Verification of the md-translation-gpt document translation pipeline.

Text is modelled as `List Char` (or `String` where only whole-string
equality matters); JavaScript string operations (trim, regex matching,
split/join) are embedded as explicit recursive functions.  Stateful
components (the hash store, the output directory, the walker) are
modelled as explicit state-passing functions; the LLM oracle is a
function parameter so that theorems quantify over every possible
sequence of oracle responses.
-/

/-! ## Shared text utilities -/

/-- JavaScript whitespace class used by String.prototype.trim (the
characters that occur in this code base: space, tab, newline, carriage
return, vertical tab, form feed). -/
def wsChar (c : Char) : Bool :=
  c = ' ' || c = '\t' || c = '\n' || c = '\r' || c = Char.ofNat 11 || c = Char.ofNat 12

/-- JavaScript String.prototype.trim on a character list. -/
def jsTrim (s : List Char) : List Char :=
  ((s.dropWhile wsChar).reverse.dropWhile wsChar).reverse

/-- Decimal digit characters, the regex class backslash-d. -/
def isDigitCh (c : Char) : Bool :=
  '0' ≤ c && c ≤ '9'

/-- JavaScript line terminators, which the regex dot does not match:
newline, carriage return, U+2028, U+2029. -/
def lineTermChar (c : Char) : Bool :=
  c = '\n' || c = '\r' || c = Char.ofNat 0x2028 || c = Char.ofNat 0x2029

/-- The decimal digit character for a value below ten. -/
def digitCh (d : ℕ) : Char := Char.ofNat (48 + d)

/-- Numeric value of a decimal digit character. -/
def charVal (c : Char) : ℕ := c.toNat - 48

/-- Value of a most-significant-first decimal digit string, the
behaviour of parseInt on an all-digit input. -/
def digitsVal (s : List Char) : ℕ :=
  s.foldl (fun a c => 10 * a + charVal c) 0

/-- Decimal rendering of a natural number, the behaviour of JavaScript
template interpolation of a non-negative integer. -/
def natDigits (n : ℕ) : List Char :=
  if n = 0 then ['0'] else ((Nat.digits 10 n).map digitCh).reverse

/-! ## MdDocId (src/domain/md_doc.ts)

`toString` renders `file:nodeNo`; `fromString` parses with the regex
caret (.*) colon (backslash-d +) dollar and throws when the regex does
not match (modelled as `none`).  The greedy group takes the longest
prefix whose remainder is all digits, i.e. the split happens at the
last colon followed by a digits-only suffix; the regex dot does not
match line terminators. -/

structure MdDocId where
  file : List Char
  nodeNo : ℕ
deriving DecidableEq

/-- MdDocId.toString: template `file:nodeNo`. -/
def MdDocId.toText (id : MdDocId) : List Char :=
  id.file ++ ':' :: natDigits id.nodeNo

/-- MdDocId.fromString: match against caret (.*) colon (backslash-d+)
dollar, then parseInt the digit group.  Returns `none` where the code
throws. -/
def MdDocId.fromText (text : List Char) : Option MdDocId :=
  let rev := text.reverse
  let ds := rev.takeWhile isDigitCh
  if ds = [] then none
  else
    match rev.drop ds.length with
    | ':' :: restRev =>
      if (restRev.reverse.all fun c => !lineTermChar c) then
        some ⟨restRev.reverse, digitsVal ds.reverse⟩
      else none
    | _ => none

/-! ## IpynbProcessorImpl (src/domain/service/md_prosessor/ipynb_processor_impl.ts)

`process` parses the notebook JSON, rewrites `cell.source` for cells
whose `cell_type` is markdown by joining the source lines with the
empty string, translating, and splitting the result on newlines, and
serializes the whole object back.  The notebook is modelled
structurally: `meta` stands for all fields other than the ones the
code touches. -/

structure IpynbCell where
  cellType : String
  source : List String
  meta : List (String × String)
deriving DecidableEq

structure IpynbNotebook where
  cells : List IpynbCell
  meta : List (String × String)
deriving DecidableEq

/-- The per-cell body of the loop in IpynbProcessorImpl.process. -/
def processCell (f : String → String) (c : IpynbCell) : IpynbCell :=
  if c.cellType = "markdown" then
    { c with source := (f (String.join c.source)).splitOn "\n" }
  else c

/-- IpynbProcessorImpl.process with the inner markdown processor
abstracted as `f`. -/
def ipynbProcess (f : String → String) (nb : IpynbNotebook) : IpynbNotebook :=
  { nb with cells := nb.cells.map (processCell f) }

/-! ## Hash store and sync-delete (src/useCases/file_walker.ts, json_client)

The hash store (JsonClient over MdHash records, keyed by relative
path) is modelled as a finite map `String → Option String`;
`deleteById` removes one key.  `syncDelete` iterates over the listed
output files (relative paths of plain files) and, for every one with
no matching source path, unlinks it and deletes its hash record. -/

structure SyncState where
  outputs : List String
  hashes : String → Option String

/-- JsonClient.deleteById via MdHashRepositoryImpl.deleteByFile: the
record keyed by `p` is removed from the map. -/
def deleteById (p : String) (m : String → Option String) : String → Option String :=
  fun k => if k = p then none else m k

/-- The loop of FileWalker.syncDelete over the remaining output files. -/
def syncDeleteGo (srcs : List String) : List String → (String → Option String) → SyncState
  | [], m => ⟨[], m⟩
  | f :: fs, m =>
    if f ∈ srcs then
      let r := syncDeleteGo srcs fs m
      ⟨f :: r.outputs, r.hashes⟩
    else
      syncDeleteGo srcs fs (deleteById f m)

/-- FileWalker.syncDelete: `srcs` are the relative paths of the current
source files; output files without a matching source are unlinked and
their hash record deleted. -/
def syncDelete (srcs : List String) (st : SyncState) : SyncState :=
  syncDeleteGo srcs st.outputs st.hashes

/-! ## FileWalker.walk per-file step (src/useCases/file_walker.ts)

For one translatable file: the file's content hash is compared with
the stored hash for its relative path; when the output file already
exists, the hashes agree and force-overwrite is off, the file is
skipped (`continue` before any processor call).  Otherwise the
processor runs (counted by `processCalls`), the output is written and
the renewed hash saved. -/

structure WalkFileState where
  outFiles : String → Option String
  hashes : String → Option String
  processCalls : ℕ

/-- Point update of a string-keyed map. -/
def mapUpdate (k v : String) (m : String → Option String) : String → Option String :=
  fun x => if x = k then some v else m x

/-- The body of the FileWalker.walk loop for a file that has a
processor: `hash` is the content hash of the source data,
`translated` the processor's result for it. -/
def walkFile (isOverwrite : Bool) (hash translated relSrcFile outPath : String)
    (st : WalkFileState) : WalkFileState :=
  if (st.outFiles outPath).isSome ∧ st.hashes relSrcFile = some hash ∧ isOverwrite = false then
    st
  else
    ⟨mapUpdate outPath translated st.outFiles,
     mapUpdate relSrcFile hash st.hashes,
     st.processCalls + 1⟩

/-! ## ProofreadTranslatorImpl.translate
(src/domain/service/md_prosessor/proofread_translator_impl)

After the initial translation (`ja`), the proofread loop runs at most
MAX_PROOFREAD_ATTEMPTS times.  `histories` starts as the single entry
`{proofreadText: ja, correctness: 0.0, error: ''}`; each iteration
passes the current `histories` to the proofread chain, records the
answer, exits when the returned correctness reaches the threshold, and
otherwise appends the rejected output to `histories`.  The oracle is a
function from the call index to the structured proofread response, so
the development quantifies over every response sequence; `trace`
instruments the history snapshot passed to the oracle at each call. -/

/-- Modelled from the spec: the constants module
(domain/service/md_prosessor/constants) is not present under src/; the
spec fixes the maximum number of proofreading attempts per block at 5. -/
def MAX_PROOFREAD_ATTEMPTS : ℕ := 5

structure ProofreadOutput where
  proofreadText : String
  correctness : ℚ
  err : String
deriving DecidableEq

structure TranslateResult where
  answer : String
  calls : ℕ
  histories : List ProofreadOutput
  trace : List (List ProofreadOutput)
deriving DecidableEq

/-- The initial history entry built from the raw translation. -/
def initHistory (ja : String) : ProofreadOutput := ⟨ja, 0, ""⟩

/-- The proofread loop: `fuel` is the remaining attempt budget, `i` the
index of the next oracle call, `hist` the accumulated histories list,
`ans` the answer variable, `tr` the instrumentation trace. -/
def proofreadLoop (oracle : ℕ → ProofreadOutput) (threshold : ℚ) :
    ℕ → ℕ → List ProofreadOutput → String → List (List ProofreadOutput) → TranslateResult
  | 0, i, hist, ans, tr => ⟨ans, i, hist, tr⟩
  | fuel + 1, i, hist, ans, tr =>
    let out := oracle i
    if threshold ≤ out.correctness then
      ⟨out.proofreadText, i + 1, hist, tr ++ [hist]⟩
    else
      proofreadLoop oracle threshold fuel (i + 1) (hist ++ [out]) out.proofreadText (tr ++ [hist])

/-- ProofreadTranslatorImpl.translate, from the proofread phase on:
`ja` is the raw translation produced by the translate phase. -/
def proofreadTranslate (oracle : ℕ → ProofreadOutput) (threshold : ℚ) (ja : String) :
    TranslateResult :=
  proofreadLoop oracle threshold MAX_PROOFREAD_ATTEMPTS 0 [initHistory ja] "" []

/-! ## Heading translation (MdProcessorImpl.translateHeadings)

The heading text is trimmed, the leading marker run and following
whitespace are stripped (regex caret #+ backslash-s *) before the
translator is invoked; an empty or trim-identical answer keeps the
trimmed source, otherwise quote-original mode renders
`src | dst` and marker mode re-attaches the marker run captured by the
regex (caret #+)[not #] when it matches. -/

/-- The leading marker run of a trimmed heading. -/
def headingMarks (s : List Char) : List Char :=
  s.takeWhile (fun c => c == '#')

/-- Strip the regex caret #+ backslash-s * from the front: only fires
when the text starts with a marker character. -/
def stripHeadingMarks (s : List Char) : List Char :=
  match s with
  | '#' :: _ => (s.dropWhile fun c => c == '#').dropWhile wsChar
  | _ => s

/-- The marker part re-attached in marker mode: the regex
(caret #+)[not #] needs a further character after the run, and the
rendered value carries a trailing space. -/
def headingMarkPart (s : List Char) : List Char :=
  let ms := headingMarks s
  if ms = [] then [] else if s.length ≤ ms.length then [] else ms ++ [' ']

/-- The text handed to the translator for a heading block. -/
def headingOracleInput (targetText : List Char) : List Char :=
  stripHeadingMarks (jsTrim targetText)

/-- MdProcessorImpl.translateHeadings with the translator abstracted
as `oracle`. -/
def translateHeadings (quoteOriginal : Bool) (oracle : List Char → List Char)
    (targetText : List Char) : List Char :=
  let srcText := jsTrim targetText
  let dstText := oracle (stripHeadingMarks srcText)
  if dstText = [] ∨ jsTrim srcText = jsTrim dstText then srcText
  else if quoteOriginal then srcText ++ ' ' :: '|' :: ' ' :: dstText
  else headingMarkPart srcText ++ dstText

/-! ## Paragraph translation (MdProcessorImpl.translateParagraph /
makeParagraphReplaceNodes)

`translateParagraph` returns the source text when the translator
answer is empty or identical; the caller in translateNodes then calls
`makeParagraphReplaceNodes` unconditionally for non-chunk paragraphs,
which re-parses the returned text into replacement nodes and, in
quote-original mode, appends a blockquote wrapping the original node.
The markup parser is abstracted as `parseChildren`, the blockquote
constructor as `blockquoteOf`. -/

/-- MdProcessorImpl.translateParagraph with the translator abstracted. -/
def translateParagraph (oracle : List Char → List Char) (targetText : List Char) : List Char :=
  let dstText := oracle targetText
  if dstText = [] then targetText
  else if dstText = targetText then targetText
  else dstText

/-- MdProcessorImpl.makeParagraphReplaceNodes. -/
def makeParagraphReplaceNodes {Node : Type} (quoteOriginal : Bool)
    (parseChildren : List Char → List Node) (blockquoteOf : Node → Node)
    (translated : List Char) (node : Node) : List Node :=
  parseChildren translated ++ (if quoteOriginal then [blockquoteOf node] else [])

/-- The paragraph branch of MdProcessorImpl.translateNodes for a
non-chunk paragraph: translate, then build replacement nodes
unconditionally. -/
def paragraphNodeUpdate {Node : Type} (quoteOriginal : Bool)
    (parseChildren : List Char → List Node) (blockquoteOf : Node → Node)
    (oracle : List Char → List Char) (targetText : List Char) (node : Node) : List Node :=
  makeParagraphReplaceNodes quoteOriginal parseChildren blockquoteOf
    (translateParagraph oracle targetText) node

/-! ## Chunk splitter and rejoin (MdProcessorImpl.parseMd / translateNodes)

Oversized paragraphs (serialized text above MAX_CHUNK_SIZE characters)
are split on line boundaries into ordered, non-overlapping chunks and
each chunk is translated separately; the translated chunks are
adjusted for trailing-newline parity (translateNodes: a trailing
newline present in the translation but not in the source chunk is
stripped) and rejoined with a single newline separator. -/

/-- The character ceiling for one chunk (MdProcessorImpl.parseMd). -/
def MAX_CHUNK_SIZE : ℕ := 1000

/-- Split on newline characters; inverse of `joinNl`. -/
def splitNl : List Char → List (List Char)
  | [] => [[]]
  | c :: rest =>
    if c = '\n' then [] :: splitNl rest
    else
      match splitNl rest with
      | [] => [[c]]
      | l :: ls => (c :: l) :: ls

/-- Join with a single newline separator, the chunk rejoin
`translatedChunks.join` with a newline in translateNodes. -/
def joinNl : List (List Char) → List Char
  | [] => []
  | [l] => l
  | l :: ls => l ++ '\n' :: joinNl ls

/-- Greedy grouping of consecutive lines into chunks of at most
`maxChars` characters (a chunk made of a single oversized line is kept
whole: lines are never split). -/
def mergeLinesGo (maxChars : ℕ) : List Char → List (List Char) → List (List Char)
  | cur, [] => [cur]
  | cur, l :: ls =>
    if cur.length + 1 + l.length ≤ maxChars then
      mergeLinesGo maxChars (cur ++ '\n' :: l) ls
    else
      cur :: mergeLinesGo maxChars l ls

/-- Modelled from the spec: the splitter used by MdProcessorImpl.parseMd
is langchain's RecursiveCharacterTextSplitter (chunkSize MAX_CHUNK_SIZE,
no overlap, separators newline then empty), which is not code of this
repository; section 4.3 of the spec describes it as splitting the block
text on line boundaries, never mid-line, into ordered chunks with no
overlap under the character ceiling. -/
def splitChunks (maxChars : ℕ) (text : List Char) : List (List Char) :=
  match splitNl text with
  | [] => []
  | l :: ls => mergeLinesGo maxChars l ls

/-- The trailing-newline parity adjustment of translateNodes: when the
translated chunk ends with a newline and the source chunk does not,
the trailing newline is removed. -/
def adjustChunk (targetText translated : List Char) : List Char :=
  if translated.getLast? = some '\n' ∧ targetText.getLast? ≠ some '\n' then
    translated.dropLast
  else translated

/-- Translate each chunk independently, in order, adjust parity and
rejoin with a single newline separator. -/
def rejoinChunks (chunks : List (List Char)) (translate : List Char → List Char) : List Char :=
  joinNl (chunks.map fun c => adjustChunk c (translate c))

/-! ## Context window builder (MdProcessorImpl.makeTargetTextWithContext)

Starting from the node's span `(s, e)` inside the document, the window
is grown on every side not yet at its boundary by
`max ((MAX_TOKENS - tokens) / 2) MIN_APPEND_TOKENS` characters per
iteration, until the token counter reports at least MAX_TOKENS tokens
for the window or the window covers the whole document.  The token
counter is an external tokenizer, abstracted as `tok`. -/

def MAX_TOKENS : ℕ := 500

def MIN_APPEND_TOKENS : ℕ := MAX_TOKENS / 5

/-- md.substring(s, e) for `s ≤ e` within bounds. -/
def ctxSub (md : List Char) (s e : ℕ) : List Char :=
  (md.drop s).take (e - s)

/-- The per-iteration growth amount: half the missing token budget,
floored at MIN_APPEND_TOKENS. -/
def ctxAppend (tokens : ℕ) : ℕ :=
  max ((MAX_TOKENS - tokens) / 2) MIN_APPEND_TOKENS

/-- The while loop of makeTargetTextWithContext.  Natural-number
subtraction mirrors the clamp of `start` at 0 and `min` the clamp of
`end` at the document length; the loop runs while the token count is
below MAX_TOKENS and the window has not reached both boundaries. -/
def ctxLoop (tok : List Char → ℕ) (md : List Char) (s e : ℕ) (he : e ≤ md.length) : ℕ × ℕ :=
  if h : tok (ctxSub md s e) < MAX_TOKENS ∧ ¬(s = 0 ∧ e = md.length) then
    ctxLoop tok md (s - ctxAppend (tok (ctxSub md s e)))
      (min (e + ctxAppend (tok (ctxSub md s e))) md.length)
      (min_le_right _ _)
  else (s, e)
termination_by s + (md.length - e)
decreasing_by
  have hap : MIN_APPEND_TOKENS ≤ ctxAppend (tok (ctxSub md s e)) := le_max_right _ _
  have hm : MIN_APPEND_TOKENS = 100 := by decide
  omega

/-- MdProcessorImpl.makeTargetTextWithContext: run the growth loop from
the node's span and return the final window text. -/
def makeTargetTextWithContext (tok : List Char → ℕ) (md : List Char) (s e : ℕ)
    (he : e ≤ md.length) : List Char :=
  ctxSub md (ctxLoop tok md s e he).1 (ctxLoop tok md s e he).2

/-! ## Concrete inputs used by the witness and counterexample theorems -/

/-- An oracle whose proofread responses never reach any positive
threshold. -/
def c2Oracle : ℕ → ProofreadOutput := fun _ => ⟨"c", 0, ""⟩

/-- A walker state with one existing output file and one stored hash. -/
def walkSkipSt : WalkFileState := ⟨fun _ => some "out", fun _ => some "h", 0⟩

/-- A notebook with a single non-markdown cell. -/
def ipynbCellW : IpynbCell := ⟨"code", ["x = 1"], [("k", "v")]⟩

def ipynbNbW : IpynbNotebook := ⟨[ipynbCellW], [("nbformat", "4")]⟩

/-- A heading translator answering a fixed non-empty text. -/
def c5Oracle : List Char → List Char := fun _ => ['X']

/-- A word counter used as a stand-in tokenizer for the context-window
witness. -/
def c7Tok : List Char → ℕ := fun s => s.length

/-! # Theorems -/

/-! ## Sync-delete (claim C4) -/

theorem syncDeleteGo_spec (srcs : List String) (outs : List String) :
    ∀ m : String → Option String,
      (syncDeleteGo srcs outs m).outputs = outs.filter (fun f => decide (f ∈ srcs)) ∧
      ∀ p, (syncDeleteGo srcs outs m).hashes p =
        if p ∈ outs ∧ p ∉ srcs then none else m p := by
  induction outs with
  | nil =>
    intro m
    simp [syncDeleteGo]
  | cons f fs ih =>
    intro m
    by_cases hf : f ∈ srcs
    · simp only [syncDeleteGo, if_pos hf]
      refine ⟨by simp [hf, (ih m).1], ?_⟩
      intro p
      rw [(ih m).2 p]
      by_cases hps : p ∈ srcs
      · simp [hps]
      · by_cases hpf : p = f
        · exact absurd (hpf ▸ hf) hps
        · simp [List.mem_cons, hpf]
    · simp only [syncDeleteGo, if_neg hf]
      refine ⟨by simp [hf, (ih (deleteById f m)).1], ?_⟩
      intro p
      rw [(ih (deleteById f m)).2 p]
      by_cases hpf : p = f
      · subst hpf
        simp [deleteById, hf]
      · simp [List.mem_cons, hpf, deleteById]

/-- C4: with delete-sync enabled, syncDelete removes exactly the output
files whose relative path has no current source file, deletes exactly
the hash records of the removed files, and leaves every other output
file and hash record intact (outputs keep their order). -/
theorem syncDelete_exact (srcs : List String) (st : SyncState) :
    (syncDelete srcs st).outputs = st.outputs.filter (fun f => decide (f ∈ srcs)) ∧
    ∀ p, (syncDelete srcs st).hashes p =
      if p ∈ st.outputs ∧ p ∉ srcs then none else st.hashes p :=
  syncDeleteGo_spec srcs st.outputs st.hashes

/-! ## Hash-based skip (claim C8) -/

/-- C8: when the output file exists, the stored hash for the relative
source path equals the content hash and force-overwrite is off, the
walk step leaves the whole state unchanged: no processor (and hence no
oracle) call, no output write, no hash update. -/
theorem walkFile_skip (ov : Bool) (hash translated rel out : String) (st : WalkFileState)
    (h1 : (st.outFiles out).isSome = true) (h2 : st.hashes rel = some hash)
    (h3 : ov = false) :
    walkFile ov hash translated rel out st = st := by
  unfold walkFile
  rw [if_pos ⟨h1, h2, h3⟩]

theorem walkFile_skip_witness :
    (walkSkipSt.outFiles "o").isSome = true ∧ walkSkipSt.hashes "r" = some "h" ∧
    walkFile false "h" "t" "r" "o" walkSkipSt = walkSkipSt :=
  ⟨rfl, rfl, walkFile_skip false "h" "t" "r" "o" walkSkipSt rfl rfl rfl⟩

/-! ## Ipynb cell frame property (claim C9) -/

/-- C9: IpynbProcessorImpl.process rewrites only the source field of
markdown cells: the notebook's other fields are untouched, the cell
list keeps its length and order, non-markdown cells are carried over
unchanged, and a markdown cell keeps its type and other fields while
its source becomes the translated text split on newlines. -/
theorem ipynbProcess_frame (f : String → String) (nb : IpynbNotebook) :
    (ipynbProcess f nb).meta = nb.meta ∧
    (ipynbProcess f nb).cells.length = nb.cells.length ∧
    ∀ (i : ℕ) (c : IpynbCell), nb.cells[i]? = some c →
      (c.cellType ≠ "markdown" → (ipynbProcess f nb).cells[i]? = some c) ∧
      ∃ c2, (ipynbProcess f nb).cells[i]? = some c2 ∧
        c2.cellType = c.cellType ∧ c2.meta = c.meta ∧
        (c.cellType = "markdown" → c2.source = (f (String.join c.source)).splitOn "\n") := by
  refine ⟨rfl, by simp [ipynbProcess], ?_⟩
  intro i c hc
  have hmap : (ipynbProcess f nb).cells[i]? = some (processCell f c) := by
    simp [ipynbProcess, List.getElem?_map, hc]
  constructor
  · intro hnot
    rw [hmap]
    simp [processCell, hnot]
  · refine ⟨processCell f c, hmap, ?_, ?_, ?_⟩
    · by_cases h : c.cellType = "markdown" <;> simp [processCell, h]
    · by_cases h : c.cellType = "markdown" <;> simp [processCell, h]
    · intro h
      simp [processCell, h]

theorem ipynbProcess_frame_witness :
    ipynbNbW.cells[0]? = some ipynbCellW ∧
    ((ipynbCellW.cellType ≠ "markdown" →
        (ipynbProcess (fun s => s) ipynbNbW).cells[0]? = some ipynbCellW) ∧
      ∃ c2, (ipynbProcess (fun s => s) ipynbNbW).cells[0]? = some c2 ∧
        c2.cellType = ipynbCellW.cellType ∧ c2.meta = ipynbCellW.meta ∧
        (ipynbCellW.cellType = "markdown" →
          c2.source = ((fun s => s) (String.join ipynbCellW.source)).splitOn "\n")) :=
  ⟨rfl, (ipynbProcess_frame (fun s => s) ipynbNbW).2.2 0 ipynbCellW rfl⟩

/-! ## Paragraph no-op handling (claim C9 frame / claim C6 bug) -/

/-- C6: evaluation of the paragraph branch at the divergence point.
When the translator returns text identical to the source,
translateParagraph does return the source text verbatim, but the
translateNodes paragraph branch still builds replacement nodes
unconditionally, and in quote-original mode the replacement is the
re-parsed source followed by a blockquote wrapping the original node,
so the node is not left untouched and the output block is not
byte-for-byte the input block. -/
theorem paragraphNodeUpdate_identity_quote {Node : Type}
    (parseChildren : List Char → List Node) (blockquoteOf : Node → Node)
    (targetText : List Char) (node : Node) :
    translateParagraph (fun t => t) targetText = targetText ∧
    paragraphNodeUpdate true parseChildren blockquoteOf (fun t => t) targetText node =
      parseChildren targetText ++ [blockquoteOf node] := by
  have h : translateParagraph (fun t => t) targetText = targetText := by
    simp [translateParagraph]
  exact ⟨h, by simp [paragraphNodeUpdate, makeParagraphReplaceNodes, h]⟩

/-! ## Proofread loop call accounting (claim C1) -/

theorem proofreadLoop_calls (o : ℕ → ProofreadOutput) (th : ℚ) :
    ∀ (fuel i : ℕ) (hist : List ProofreadOutput) (ans : String)
      (tr : List (List ProofreadOutput)),
      i ≤ (proofreadLoop o th fuel i hist ans tr).calls ∧
      (proofreadLoop o th fuel i hist ans tr).calls ≤ i + fuel ∧
      ((∃ j, i ≤ j ∧ j < (proofreadLoop o th fuel i hist ans tr).calls ∧
          th ≤ (o j).correctness) ∨
        (proofreadLoop o th fuel i hist ans tr).calls = i + fuel) := by
  intro fuel
  induction fuel with
  | zero =>
    intro i hist ans tr
    simp [proofreadLoop]
  | succ n ih =>
    intro i hist ans tr
    simp only [proofreadLoop]
    by_cases hacc : th ≤ (o i).correctness
    · rw [if_pos hacc]
      dsimp only
      exact ⟨Nat.le_succ i, by omega, Or.inl ⟨i, le_refl i, by omega, hacc⟩⟩
    · rw [if_neg hacc]
      obtain ⟨h1, h2, h3⟩ := ih (i + 1) (hist ++ [o i]) (o i).proofreadText (tr ++ [hist])
      refine ⟨by omega, by omega, ?_⟩
      rcases h3 with ⟨j, hj1, hj2, hj3⟩ | heq
      · exact Or.inl ⟨j, by omega, hj2, hj3⟩
      · exact Or.inr (by omega)

/-- C1: for every sequence of proofread responses and every threshold,
the proofread loop calls the proofreading oracle at most
MAX_PROOFREAD_ATTEMPTS times for one block, and it only returns once a
correctness score at or above the threshold has been observed among
the calls made or the whole attempt budget has been consumed. -/
theorem proofreadTranslate_bounded (oracle : ℕ → ProofreadOutput) (threshold : ℚ)
    (ja : String) :
    (proofreadTranslate oracle threshold ja).calls ≤ MAX_PROOFREAD_ATTEMPTS ∧
    ((∃ i, i < (proofreadTranslate oracle threshold ja).calls ∧
        threshold ≤ (oracle i).correctness) ∨
      (proofreadTranslate oracle threshold ja).calls = MAX_PROOFREAD_ATTEMPTS) := by
  obtain ⟨h1, h2, h3⟩ :=
    proofreadLoop_calls oracle threshold MAX_PROOFREAD_ATTEMPTS 0 [initHistory ja] "" []
  unfold proofreadTranslate
  refine ⟨by omega, ?_⟩
  rcases h3 with ⟨j, _, hj2, hj3⟩ | heq
  · exact Or.inl ⟨j, hj2, hj3⟩
  · exact Or.inr (by omega)

/-! ## Proofread history contents (claim C2) -/

theorem proofreadLoop_trace_super (o : ℕ → ProofreadOutput) (th : ℚ) :
    ∀ (fuel i : ℕ) (hist : List ProofreadOutput) (ans : String)
      (tr : List (List ProofreadOutput)),
      ∃ rest, (proofreadLoop o th fuel i hist ans tr).trace = tr ++ rest := by
  intro fuel
  induction fuel with
  | zero =>
    intro i hist ans tr
    exact ⟨[], by simp [proofreadLoop]⟩
  | succ n ih =>
    intro i hist ans tr
    simp only [proofreadLoop]
    by_cases hacc : th ≤ (o i).correctness
    · rw [if_pos hacc]
      exact ⟨[hist], rfl⟩
    · rw [if_neg hacc]
      obtain ⟨rest, hr⟩ := ih (i + 1) (hist ++ [o i]) (o i).proofreadText (tr ++ [hist])
      exact ⟨[hist] ++ rest, by rw [hr, List.append_assoc]⟩

theorem proofreadLoop_trace_get (o : ℕ → ProofreadOutput) (th : ℚ) :
    ∀ (fuel i : ℕ) (hist : List ProofreadOutput) (ans : String)
      (tr : List (List ProofreadOutput)) (k : ℕ),
      i + k < (proofreadLoop o th fuel i hist ans tr).calls →
      (proofreadLoop o th fuel i hist ans tr).trace[tr.length + k]? =
        some (hist ++ (List.range' i k).map o) := by
  intro fuel
  induction fuel with
  | zero =>
    intro i hist ans tr k hk
    exfalso
    simp [proofreadLoop] at hk
  | succ n ih =>
    intro i hist ans tr k hk
    simp only [proofreadLoop] at hk ⊢
    by_cases hacc : th ≤ (o i).correctness
    · rw [if_pos hacc] at hk ⊢
      simp only at hk
      have hk0 : k = 0 := by omega
      subst hk0
      simp [List.range'_zero]
    · rw [if_neg hacc] at hk ⊢
      cases k with
      | zero =>
        obtain ⟨rest, hr⟩ :=
          proofreadLoop_trace_super o th n (i + 1) (hist ++ [o i]) (o i).proofreadText
            (tr ++ [hist])
        rw [hr, List.append_assoc]
        rw [List.getElem?_append_right (by omega)]
        simp
      | succ k' =>
        have h2 := ih (i + 1) (hist ++ [o i]) (o i).proofreadText (tr ++ [hist]) k'
          (by omega)
        have hlen : (tr ++ [hist]).length + k' = tr.length + (k' + 1) := by
          simp only [List.length_append, List.length_cons, List.length_nil]
          omega
        rw [hlen] at h2
        have hcont : (hist ++ [o i]) ++ (List.range' (i + 1) k').map o =
            hist ++ (List.range' i (k' + 1)).map o := by
          rw [List.range'_succ]
          simp
        rw [hcont] at h2
        exact h2

theorem proofreadLoop_rejects (o : ℕ → ProofreadOutput) (th : ℚ) :
    ∀ (fuel i : ℕ) (hist : List ProofreadOutput) (ans : String)
      (tr : List (List ProofreadOutput)) (j : ℕ),
      i ≤ j → j + 1 < (proofreadLoop o th fuel i hist ans tr).calls →
      (o j).correctness < th := by
  intro fuel
  induction fuel with
  | zero =>
    intro i hist ans tr j hij hj
    simp [proofreadLoop] at hj
    omega
  | succ n ih =>
    intro i hist ans tr j hij hj
    simp only [proofreadLoop] at hj
    by_cases hacc : th ≤ (o i).correctness
    · rw [if_pos hacc] at hj
      simp only at hj
      omega
    · rw [if_neg hacc] at hj
      rcases Nat.eq_or_lt_of_le hij with heq | hlt
      · subst heq
        exact lt_of_not_le hacc
      · exact ih (i + 1) (hist ++ [o i]) (o i).proofreadText (tr ++ [hist]) j hlt hj

/-- C2 counterexample: on the very first proofread attempt the history
passed to the oracle is not empty — it already carries one entry, the
initial raw translation — although zero candidates have been rejected
at that point. -/
theorem proofreadHistory_counterexample :
    (proofreadTranslate c2Oracle 1 "x").trace[0]? = some [initHistory "x"] ∧
    [initHistory "x"] ≠ ([] : List ProofreadOutput) := by
  constructor
  · rfl
  · simp

/-- C2 amended: the history passed to the proofreading oracle on
attempt k+1 consists of the initial entry built from the raw
translation followed by exactly the k proofread outputs rejected on
the prior attempts, in the order they were produced, and nothing else;
every one of those prior outputs scored strictly below the threshold. -/
theorem proofreadTranslate_history (oracle : ℕ → ProofreadOutput) (threshold : ℚ)
    (ja : String) (k : ℕ) (hk : k < (proofreadTranslate oracle threshold ja).calls) :
    (proofreadTranslate oracle threshold ja).trace[k]? =
      some (initHistory ja :: (List.range k).map oracle) ∧
    ∀ j, j < k → (oracle j).correctness < threshold := by
  constructor
  · have h := proofreadLoop_trace_get oracle threshold MAX_PROOFREAD_ATTEMPTS 0
      [initHistory ja] "" [] k (by simpa [proofreadTranslate] using hk)
    simpa [proofreadTranslate, List.range_eq_range'] using h
  · intro j hj
    refine proofreadLoop_rejects oracle threshold MAX_PROOFREAD_ATTEMPTS 0
      [initHistory ja] "" [] j (Nat.zero_le j) ?_
    have : k < (proofreadLoop oracle threshold MAX_PROOFREAD_ATTEMPTS 0
        [initHistory ja] "" []).calls := by
      simpa [proofreadTranslate] using hk
    omega

theorem proofreadTranslate_history_witness :
    2 < (proofreadTranslate c2Oracle 1 "x").calls ∧
    ((proofreadTranslate c2Oracle 1 "x").trace[2]? =
        some (initHistory "x" :: (List.range 2).map c2Oracle) ∧
      ∀ j, j < 2 → (c2Oracle j).correctness < 1) :=
  ⟨by decide, proofreadTranslate_history c2Oracle 1 "x" 2 (by decide)⟩

/-! ## Heading translation (claim C5) -/

/-- C5 counterexample: for the marker-only heading consisting of a
single marker character, the regex (caret #+)[not #] does not match,
so marker mode returns the bare translation with the marker dropped,
not the marker sequence followed by the translation. -/
theorem translateHeadings_counterexample :
    translateHeadings false c5Oracle ['#'] = ['X'] ∧
    translateHeadings false c5Oracle ['#'] ≠ '#' :: ' ' :: ['X'] := by
  constructor <;> decide

/-- C5 amended: the heading text is trimmed and its leading marker run
plus following whitespace stripped before the translator sees it; when
the translator answer is empty or trim-equal to the trimmed heading,
the trimmed heading is returned; otherwise quote-original mode renders
the trimmed heading, a separator bar and the translation, and marker
mode re-attaches the marker run exactly when the trimmed heading has
at least one non-marker character after a non-empty marker run,
returning the bare translation for marker-only or marker-less
headings. -/
theorem translateHeadings_spec (q : Bool) (oracle : List Char → List Char) (tt : List Char) :
    (oracle (headingOracleInput tt) = [] ∨
        jsTrim (jsTrim tt) = jsTrim (oracle (headingOracleInput tt)) →
      translateHeadings q oracle tt = jsTrim tt) ∧
    (oracle (headingOracleInput tt) ≠ [] →
      jsTrim (jsTrim tt) ≠ jsTrim (oracle (headingOracleInput tt)) →
      (q = true →
        translateHeadings q oracle tt =
          jsTrim tt ++ ' ' :: '|' :: ' ' :: oracle (headingOracleInput tt)) ∧
      (q = false → headingMarks (jsTrim tt) ≠ [] →
        (headingMarks (jsTrim tt)).length < (jsTrim tt).length →
        translateHeadings q oracle tt =
          headingMarks (jsTrim tt) ++ ' ' :: oracle (headingOracleInput tt)) ∧
      (q = false →
        (headingMarks (jsTrim tt) = [] ∨
          (jsTrim tt).length ≤ (headingMarks (jsTrim tt)).length) →
        translateHeadings q oracle tt = oracle (headingOracleInput tt))) := by
  constructor
  · intro h
    simp only [translateHeadings, headingOracleInput] at h ⊢
    rw [if_pos h]
  · intro h1 h2
    have hcond : ¬(oracle (stripHeadingMarks (jsTrim tt)) = [] ∨
        jsTrim (jsTrim tt) = jsTrim (oracle (stripHeadingMarks (jsTrim tt)))) := by
      push_neg
      exact ⟨h1, h2⟩
    refine ⟨?_, ?_, ?_⟩
    · intro hq
      subst hq
      simp only [translateHeadings, headingOracleInput]
      rw [if_neg hcond]
      simp
    · intro hq hms hlen
      subst hq
      simp only [translateHeadings, headingOracleInput]
      rw [if_neg hcond, if_neg (by simp)]
      unfold headingMarkPart
      rw [if_neg hms, if_neg (by omega)]
      simp
    · intro hq hdeg
      subst hq
      simp only [translateHeadings, headingOracleInput]
      rw [if_neg hcond, if_neg (by simp)]
      unfold headingMarkPart
      rcases hdeg with hms | hlen
      · rw [if_pos hms]
        simp
      · by_cases hms : headingMarks (jsTrim tt) = []
        · rw [if_pos hms]
          simp
        · rw [if_neg hms, if_pos hlen]
          simp

theorem translateHeadings_spec_witness :
    c5Oracle (headingOracleInput ['#', '#', ' ', 'A']) ≠ [] ∧
    jsTrim (jsTrim ['#', '#', ' ', 'A']) ≠
      jsTrim (c5Oracle (headingOracleInput ['#', '#', ' ', 'A'])) ∧
    translateHeadings false c5Oracle ['#', '#', ' ', 'A'] =
      headingMarks (jsTrim ['#', '#', ' ', 'A']) ++
        ' ' :: c5Oracle (headingOracleInput ['#', '#', ' ', 'A']) :=
  ⟨by decide, by decide,
    ((translateHeadings_spec false c5Oracle ['#', '#', ' ', 'A']).2 (by decide)
        (by decide)).2.1 rfl (by decide) (by decide)⟩

/-! ## Chunk split and rejoin (claim C3) -/

theorem splitNl_ne_nil : ∀ t : List Char, splitNl t ≠ [] := by
  intro t
  induction t with
  | nil => simp [splitNl]
  | cons c rest ih =>
    by_cases hc : c = '\n'
    · simp [splitNl, hc]
    · simp only [splitNl, if_neg hc]
      cases h : splitNl rest <;> simp

theorem joinNl_cons_cons (a b : List Char) (ls : List (List Char)) :
    joinNl (a :: b :: ls) = a ++ '\n' :: joinNl (b :: ls) := rfl

theorem splitNl_newline (rest : List Char) : splitNl ('\n' :: rest) = [] :: splitNl rest := by
  simp [splitNl]

theorem splitNl_other (c : Char) (rest : List Char) (hc : c ≠ '\n') :
    splitNl (c :: rest) =
      match splitNl rest with
      | [] => [[c]]
      | l :: ls => (c :: l) :: ls := by
  simp [splitNl, hc]

theorem joinNl_splitNl : ∀ t : List Char, joinNl (splitNl t) = t := by
  intro t
  induction t with
  | nil => rfl
  | cons c rest ih =>
    obtain ⟨l, ls, h⟩ : ∃ l ls, splitNl rest = l :: ls := by
      cases h : splitNl rest with
      | nil => exact absurd h (splitNl_ne_nil rest)
      | cons l ls => exact ⟨l, ls, rfl⟩
    rw [h] at ih
    by_cases hc : c = '\n'
    · subst hc
      rw [splitNl_newline, h, joinNl_cons_cons, ih]
      rfl
    · rw [splitNl_other c rest hc, h]
      cases ls with
      | nil =>
        simp only [joinNl] at ih ⊢
        rw [ih]
      | cons b bs =>
        rw [joinNl_cons_cons] at ih
        rw [joinNl_cons_cons, ← ih]
        rfl

theorem mergeLinesGo_ne_nil (mx : ℕ) :
    ∀ (ls : List (List Char)) (cur : List Char), mergeLinesGo mx cur ls ≠ [] := by
  intro ls
  induction ls with
  | nil => intro cur; simp [mergeLinesGo]
  | cons l ls ih =>
    intro cur
    simp only [mergeLinesGo]
    split
    · exact ih (cur ++ '\n' :: l)
    · simp

theorem mergeLinesGo_join (mx : ℕ) :
    ∀ (ls : List (List Char)) (cur : List Char),
      joinNl (mergeLinesGo mx cur ls) = joinNl (cur :: ls) := by
  intro ls
  induction ls with
  | nil => intro cur; rfl
  | cons l ls ih =>
    intro cur
    simp only [mergeLinesGo]
    split
    · rw [ih (cur ++ '\n' :: l), joinNl_cons_cons]
      cases ls with
      | nil => simp [joinNl]
      | cons b bs =>
        rw [joinNl_cons_cons, joinNl_cons_cons]
        simp
    · obtain ⟨m, ms, hm⟩ : ∃ m ms, mergeLinesGo mx l ls = m :: ms := by
        cases h : mergeLinesGo mx l ls with
        | nil => exact absurd h (mergeLinesGo_ne_nil mx ls l)
        | cons m ms => exact ⟨m, ms, rfl⟩
      rw [hm, joinNl_cons_cons, ← hm, ih l, joinNl_cons_cons]

theorem adjustChunk_id (c : List Char) : adjustChunk c c = c := by
  unfold adjustChunk
  rw [if_neg]
  rintro ⟨h1, h2⟩
  exact h2 h1

/-- C3: splitting a block on line boundaries into ordered,
non-overlapping chunks and rejoining is lossless — joining the chunks
back with the newline separator reproduces the block text exactly —
and when every chunk is translated by the identity function the
parity-adjusted rejoin of translateNodes also reproduces the original
block text exactly, including whether it ended with a trailing line
break. -/
theorem splitChunks_rejoin (maxChars : ℕ) (text : List Char) :
    joinNl (splitChunks maxChars text) = text ∧
    rejoinChunks (splitChunks maxChars text) (fun c => c) = text := by
  have h1 : joinNl (splitChunks maxChars text) = text := by
    unfold splitChunks
    obtain ⟨l, ls, h⟩ : ∃ l ls, splitNl text = l :: ls := by
      cases h : splitNl text with
      | nil => exact absurd h (splitNl_ne_nil text)
      | cons l ls => exact ⟨l, ls, rfl⟩
    rw [h, mergeLinesGo_join, ← h, joinNl_splitNl]
  refine ⟨h1, ?_⟩
  unfold rejoinChunks
  have hmap : (splitChunks maxChars text).map (fun c => adjustChunk c c) =
      splitChunks maxChars text := by
    have : (fun c : List Char => adjustChunk c c) = fun c => c := by
      funext c
      exact adjustChunk_id c
    rw [this, List.map_id']
  rw [hmap, h1]

/-! ## Context window builder (claim C7) -/

theorem ctxLoop_post (tok : List Char → ℕ) (md : List Char) :
    ∀ (N s e : ℕ) (he : e ≤ md.length), s + (md.length - e) ≤ N →
      (ctxLoop tok md s e he).1 ≤ s ∧ e ≤ (ctxLoop tok md s e he).2 ∧
      (ctxLoop tok md s e he).2 ≤ md.length ∧
      (MAX_TOKENS ≤ tok (ctxSub md (ctxLoop tok md s e he).1 (ctxLoop tok md s e he).2) ∨
        ((ctxLoop tok md s e he).1 = 0 ∧ (ctxLoop tok md s e he).2 = md.length)) := by
  intro N
  induction N with
  | zero =>
    intro s e he hN
    have hs : s = 0 := by omega
    have heq : e = md.length := by omega
    rw [ctxLoop]
    rw [dif_neg (by rintro ⟨-, hb⟩; exact hb ⟨hs, heq⟩)]
    exact ⟨le_refl s, le_refl e, he, Or.inr ⟨hs, heq⟩⟩
  | succ n ih =>
    intro s e he hN
    rw [ctxLoop]
    by_cases h : tok (ctxSub md s e) < MAX_TOKENS ∧ ¬(s = 0 ∧ e = md.length)
    · rw [dif_pos h]
      have hap : MIN_APPEND_TOKENS ≤ ctxAppend (tok (ctxSub md s e)) := le_max_right _ _
      have hm : MIN_APPEND_TOKENS = 100 := by decide
      obtain ⟨r1, r2, r3, r4⟩ := ih (s - ctxAppend (tok (ctxSub md s e)))
        (min (e + ctxAppend (tok (ctxSub md s e))) md.length) (min_le_right _ _) (by omega)
      exact ⟨by omega, by omega, r3, r4⟩
    · rw [dif_neg h]
      refine ⟨le_refl s, le_refl e, he, ?_⟩
      by_cases ht : tok (ctxSub md s e) < MAX_TOKENS
      · refine Or.inr ?_
        by_contra hb
        exact h ⟨ht, hb⟩
      · exact Or.inl (le_of_not_lt ht)

/-- C7: for every token counter, document and block span inside it, the
context-growth loop terminates (it is defined by well-founded recursion
on the remaining distance to the document boundaries) and returns a
contiguous substring window that contains the block's own span and
either counts at least MAX_TOKENS tokens or spans the whole document;
each iteration's growth amount is floored at MIN_APPEND_TOKENS, which
is what shrinks the remaining distance and guarantees convergence. -/
theorem makeTargetTextWithContext_spec (tok : List Char → ℕ) (md : List Char) (bs be : ℕ)
    (hbe : be ≤ md.length) :
    (∀ t, t < MAX_TOKENS → MIN_APPEND_TOKENS ≤ ctxAppend t) ∧
    ∃ s e, s ≤ bs ∧ be ≤ e ∧ e ≤ md.length ∧
      makeTargetTextWithContext tok md bs be hbe = ctxSub md s e ∧
      (MAX_TOKENS ≤ tok (ctxSub md s e) ∨ (s = 0 ∧ e = md.length)) := by
  refine ⟨fun t _ => le_max_right _ _, ?_⟩
  obtain ⟨h1, h2, h3, h4⟩ :=
    ctxLoop_post tok md (bs + (md.length - be)) bs be hbe (le_refl _)
  exact ⟨(ctxLoop tok md bs be hbe).1, (ctxLoop tok md bs be hbe).2, h1, h2, h3, rfl, h4⟩

theorem makeTargetTextWithContext_spec_witness :
    (2 : ℕ) ≤ (['a', 'b', 'c'] : List Char).length ∧
    ((∀ t, t < MAX_TOKENS → MIN_APPEND_TOKENS ≤ ctxAppend t) ∧
      ∃ s e, s ≤ 1 ∧ 2 ≤ e ∧ e ≤ (['a', 'b', 'c'] : List Char).length ∧
        makeTargetTextWithContext c7Tok ['a', 'b', 'c'] 1 2 (by decide) =
          ctxSub ['a', 'b', 'c'] s e ∧
        (MAX_TOKENS ≤ c7Tok (ctxSub ['a', 'b', 'c'] s e) ∨
          (s = 0 ∧ e = (['a', 'b', 'c'] : List Char).length))) :=
  ⟨by decide, makeTargetTextWithContext_spec c7Tok ['a', 'b', 'c'] 1 2 (by decide)⟩

/-! ## MdDocId round trip (claim C10) -/

theorem charVal_digitCh (d : ℕ) (hd : d < 10) : charVal (digitCh d) = d := by
  interval_cases d <;> decide

theorem isDigitCh_digitCh (d : ℕ) (hd : d < 10) : isDigitCh (digitCh d) = true := by
  interval_cases d <;> decide

theorem natDigits_all_digit (n : ℕ) : ∀ c ∈ natDigits n, isDigitCh c = true := by
  unfold natDigits
  split
  · intro c hc
    simp only [List.mem_singleton] at hc
    subst hc
    decide
  · intro c hc
    simp only [List.mem_reverse, List.mem_map] at hc
    obtain ⟨d, hd, rfl⟩ := hc
    exact isDigitCh_digitCh d (Nat.digits_lt_base (by norm_num) hd)

theorem natDigits_ne_nil (n : ℕ) : natDigits n ≠ [] := by
  unfold natDigits
  split
  · simp
  · simp only [ne_eq, List.reverse_eq_nil_iff, List.map_eq_nil_iff]
    exact Nat.digits_ne_nil_iff_ne_zero.mpr (by assumption)

theorem digitsVal_append (s : List Char) (c : Char) :
    digitsVal (s ++ [c]) = 10 * digitsVal s + charVal c := by
  unfold digitsVal
  rw [List.foldl_append]
  rfl

theorem digitsVal_ofDigits :
    ∀ L : List ℕ, (∀ d ∈ L, d < 10) →
      digitsVal ((L.map digitCh).reverse) = Nat.ofDigits 10 L := by
  intro L
  induction L with
  | nil =>
    intro _
    simp [digitsVal, Nat.ofDigits_nil]
  | cons d L ih =>
    intro h
    rw [List.map_cons, List.reverse_cons, digitsVal_append]
    rw [ih (fun x hx => h x (List.mem_cons_of_mem _ hx))]
    rw [charVal_digitCh d (h d (List.mem_cons_self _ _))]
    rw [Nat.ofDigits_cons]
    ring

theorem digitsVal_natDigits (n : ℕ) : digitsVal (natDigits n) = n := by
  unfold natDigits
  split
  · rename_i h
    subst h
    decide
  · rw [digitsVal_ofDigits (Nat.digits 10 n)
      (fun d hd => Nat.digits_lt_base (by norm_num) hd)]
    exact Nat.ofDigits_digits 10 n

theorem takeWhile_all_append (p : Char → Bool) :
    ∀ (l1 : List Char) (c : Char) (l2 : List Char),
      (∀ x ∈ l1, p x = true) → p c = false →
      (l1 ++ c :: l2).takeWhile p = l1 := by
  intro l1
  induction l1 with
  | nil =>
    intro c l2 _ hc
    simp [List.takeWhile_cons, hc]
  | cons a l ih =>
    intro c l2 h hc
    rw [List.cons_append, List.takeWhile_cons]
    rw [h a (List.mem_cons_self _ _)]
    rw [ih c l2 (fun x hx => h x (List.mem_cons_of_mem _ hx)) hc]
    simp

/-- C10 counterexample: a file path containing a newline defeats the
fromString regex — the dot class does not match line terminators — so
the round trip fails (the code throws, modelled as `none`) even though
toString produced a well-formed rendering. -/
theorem mdDocId_roundtrip_counterexample :
    MdDocId.fromText (MdDocId.toText ⟨['a', '\n', 'b'], 0⟩) = none := by
  decide

/-- C10 amended: for every file path free of line terminator characters
(newline, carriage return, U+2028, U+2029) and every natural nodeNo,
fromString inverts toString, recovering both components exactly, even
when the path contains colon characters. -/
theorem mdDocId_roundtrip (file : List Char) (n : ℕ)
    (hf : ∀ c ∈ file, lineTermChar c = false) :
    MdDocId.fromText (MdDocId.toText ⟨file, n⟩) = some ⟨file, n⟩ := by
  have hrev : (MdDocId.toText ⟨file, n⟩).reverse =
      (natDigits n).reverse ++ ':' :: file.reverse := by
    simp [MdDocId.toText, List.reverse_append]
  have htake : ((natDigits n).reverse ++ ':' :: file.reverse).takeWhile isDigitCh =
      (natDigits n).reverse := by
    refine takeWhile_all_append isDigitCh _ ':' _ ?_ (by decide)
    intro x hx
    exact natDigits_all_digit n x (List.mem_reverse.mp hx)
  have hds_ne : (natDigits n).reverse ≠ [] := by
    simpa using natDigits_ne_nil n
  simp only [MdDocId.fromText]
  rw [hrev, htake]
  rw [if_neg hds_ne]
  rw [List.drop_left]
  simp only [List.reverse_reverse]
  rw [if_pos]
  · rw [digitsVal_natDigits]
  · rw [List.all_eq_true]
    intro x hx
    rw [hf x hx]
    rfl

theorem mdDocId_roundtrip_witness :
    (∀ c ∈ (['a', ':', 'b'] : List Char), lineTermChar c = false) ∧
    MdDocId.fromText (MdDocId.toText ⟨['a', ':', 'b'], 7⟩) = some ⟨['a', ':', 'b'], 7⟩ :=
  ⟨by decide, mdDocId_roundtrip ['a', ':', 'b'] 7 (by decide)⟩
